import Mathlib

/-!
Verification of the S3 adapter package (filesystem provider and CDN
provider) against its specification.

Paths, keys and URLs are modelled as `List Char` (the character sequence of
the JavaScript string).  The remote object store is modelled as an
association list from keys to stored objects, and each adapter operation is
a pure function that returns the list of S3 commands it issues together
with its result (`Except` for operations that can throw).
-/

set_option maxRecDepth 4000

/-! ## Key normalizer (`_s3Key` in S3FileSystemProvider) -/

/-- `fsPath.replace(/\\/g, "/")`: every backslash becomes a forward slash. -/
def normSlashes (l : List Char) : List Char :=
  l.map (fun c => if c = '\\' then '/' else c)

/-- `.replace(/^\/+|\/+$/g, "")`: strip the leading and trailing runs of
slashes. -/
def stripSlashes (l : List Char) : List Char :=
  ((l.dropWhile (fun c => c = '/')).reverse.dropWhile (fun c => c = '/')).reverse

/-- `normalizedPath.split("/")` with JavaScript semantics: splitting the
empty string yields `[""]`, and empty fields are kept. -/
def splitSlash : List Char → List (List Char)
  | [] => [[]]
  | c :: rest =>
    if c = '/' then [] :: splitSlash rest
    else
      match splitSlash rest with
      | [] => [[c]]
      | p :: ps => (c :: p) :: ps

/-- `resultParts.join("/")`. -/
def joinSlash : List (List Char) → List Char
  | [] => []
  | [x] => x
  | x :: xs => x ++ '/' :: joinSlash xs

/-- The segment walk of `_s3Key`: `..` pops the last pushed segment and
fails when the output stack is empty; `.` and empty segments are dropped;
anything else is pushed. -/
def walkSegs : List (List Char) → List (List Char) → Option (List (List Char))
  | [], acc => some acc
  | s :: rest, acc =>
    if s = ['.', '.'] then
      if acc = [] then none else walkSegs rest acc.dropLast
    else if s = ['.'] then walkSegs rest acc
    else if s = [] then walkSegs rest acc
    else walkSegs rest (acc ++ [s])

/-- The segments `_s3Key` walks over for a given raw path. -/
def pathSegments (fsPath : List Char) : List (List Char) :=
  splitSlash (stripSlashes (normSlashes fsPath))

/-- `_s3Key`: `none` models the thrown path-traversal error. -/
def s3Key (fsPath : List Char) : Option (List Char) :=
  (walkSegs (pathSegments fsPath) []).map joinSlash

/-- Errors any of the filesystem-adapter operations can throw. -/
inductive SdkErrName
  | noSuchKey
  | notFoundErr
  | otherErr
deriving DecidableEq

/-- An error surfaced by the store client, as inspected by the adapter
(`error.name`, `error.$metadata.httpStatusCode`). -/
structure S3Error where
  name : SdkErrName
  httpStatusCode : Option Nat
deriving DecidableEq

inductive FsError
  | pathTraversal (p : List Char)
  | emptyKey
  | notFound (p : List Char)
  | alreadyExists (p : List Char)
  | store (e : S3Error)
deriving DecidableEq

/-- `_s3Key` with the thrown error made explicit, as the operations see it. -/
def s3KeyE (fsPath : List Char) : Except FsError (List Char) :=
  match s3Key fsPath with
  | none => .error (.pathTraversal fsPath)
  | some k => .ok k

/-- Reference walk following the claim's description of traversal failure,
tracking only the height of the output stack: `..` decrements and fails at
height zero, `.` and empty segments are dropped, anything else increments. -/
def refHeightWalk : List (List Char) → Nat → Option Nat
  | [], n => some n
  | s :: rest, n =>
    if s = ['.', '.'] then
      if n = 0 then none else refHeightWalk rest (n - 1)
    else if s = ['.'] then refHeightWalk rest n
    else if s = [] then refHeightWalk rest n
    else refHeightWalk rest (n + 1)

/-! ### Lemmas about the walk -/

theorem walkSegs_isSome_iff (segs : List (List Char)) :
    ∀ acc : List (List Char),
      (walkSegs segs acc).isSome = (refHeightWalk segs acc.length).isSome := by
  induction segs with
  | nil => intro acc; rfl
  | cons s rest ih =>
    intro acc
    by_cases hdd : s = ['.', '.']
    · subst hdd
      by_cases hacc : acc = []
      · subst hacc; simp [walkSegs, refHeightWalk]
      · have hlen : acc.length ≠ 0 := by
          simpa [List.length_eq_zero] using hacc
        simp [walkSegs, refHeightWalk, hacc, hlen, ih, List.length_dropLast]
    · by_cases hd : s = ['.']
      · subst hd; simp [walkSegs, refHeightWalk, ih]
      · by_cases he : s = []
        · subst he; simp [walkSegs, refHeightWalk, hd, ih]
        · simp [walkSegs, refHeightWalk, hdd, hd, he, ih]

theorem s3Key_none_iff (p : List Char) :
    s3Key p = none ↔ refHeightWalk (pathSegments p) 0 = none := by
  have h := walkSegs_isSome_iff (pathSegments p) []
  simp only [List.length_nil] at h
  unfold s3Key
  rcases hw : walkSegs (pathSegments p) [] with _ | v <;>
    rcases hr : refHeightWalk (pathSegments p) 0 with _ | n <;>
    simp [hw, hr] at h ⊢

/-- **C1.** For every raw path whose segment walk hits `..` on an empty
output stack, `_s3Key` fails (modelled by `none`, wrapped as
`PathTraversalError` by `s3KeyE`); concretely `"../x"` and `"a/../../b"`
fail; `.` and empty segments are dropped, and `..` otherwise pops the last
pushed output segment. -/
theorem s3Key_traversal_characterization :
    s3KeyE (String.toList ("../x")) = .error (.pathTraversal (String.toList ("../x")))
    ∧ s3KeyE (String.toList ("a/../../b")) = .error (.pathTraversal (String.toList ("a/../../b")))
    ∧ (∀ p, s3Key p = none ↔ refHeightWalk (pathSegments p) 0 = none)
    ∧ (∀ rest acc, walkSegs (['.', '.'] :: rest) acc =
        if acc = [] then none else walkSegs rest acc.dropLast)
    ∧ (∀ rest acc, walkSegs (['.'] :: rest) acc = walkSegs rest acc)
    ∧ (∀ rest acc, walkSegs ([] :: rest) acc = walkSegs rest acc) := by
  refine ⟨rfl, rfl, s3Key_none_iff, ?_, ?_, ?_⟩
  · intro rest acc; rfl
  · intro rest acc; rfl
  · intro rest acc; rfl

/-! ### Idempotence of the key normalizer -/

theorem splitSlash_ne_nil (l : List Char) : splitSlash l ≠ [] := by
  cases l with
  | nil => simp [splitSlash]
  | cons c rest =>
    by_cases h : c = '/'
    · simp [splitSlash, h]
    · rcases hr : splitSlash rest with _ | ⟨p, ps⟩
      · simp [splitSlash, h, hr]
      · simp [splitSlash, h, hr]

theorem mem_splitSlash_no_slash :
    ∀ (l : List Char) (x : List Char), x ∈ splitSlash l → '/' ∉ x := by
  intro l
  induction l with
  | nil =>
    intro x hx
    simp [splitSlash] at hx
    subst hx; simp
  | cons c rest ih =>
    intro x hx
    by_cases h : c = '/'
    · simp [splitSlash, h] at hx
      rcases hx with hx | hx
      · subst hx; simp
      · exact ih x hx
    · rcases hr : splitSlash rest with _ | ⟨p, ps⟩
      · exact absurd hr (splitSlash_ne_nil rest)
      · simp [splitSlash, h, hr] at hx
        rcases hx with hx | hx
        · subst hx
          intro hmem
          rcases List.mem_cons.mp hmem with h1 | h1
          · exact h h1.symm
          · exact ih p (by rw [hr]; exact List.mem_cons_self p ps) h1
        · exact ih x (by rw [hr]; exact List.mem_cons_of_mem p hx)

theorem mem_splitSlash_sub :
    ∀ (l : List Char) (x : List Char), x ∈ splitSlash l → ∀ c ∈ x, c ∈ l := by
  intro l
  induction l with
  | nil =>
    intro x hx
    simp [splitSlash] at hx
    subst hx; simp
  | cons c rest ih =>
    intro x hx d hd
    by_cases h : c = '/'
    · simp [splitSlash, h] at hx
      rcases hx with hx | hx
      · subst hx; simp at hd
      · exact List.mem_cons_of_mem c (ih x hx d hd)
    · rcases hr : splitSlash rest with _ | ⟨p, ps⟩
      · exact absurd hr (splitSlash_ne_nil rest)
      · simp [splitSlash, h, hr] at hx
        rcases hx with hx | hx
        · subst hx
          rcases List.mem_cons.mp hd with h1 | h1
          · simp [h1]
          · exact List.mem_cons_of_mem c
              (ih p (by rw [hr]; exact List.mem_cons_self p ps) d h1)
        · exact List.mem_cons_of_mem c
            (ih x (by rw [hr]; exact List.mem_cons_of_mem p hx) d hd)

theorem splitSlash_of_no_slash (l : List Char) (h : '/' ∉ l) : splitSlash l = [l] := by
  induction l with
  | nil => rfl
  | cons c rest ih =>
    have hc : ¬ c = '/' := by
      intro hcc
      exact h (by simp [hcc])
    have hrest : '/' ∉ rest := fun hr => h (List.mem_cons_of_mem _ hr)
    simp [splitSlash, hc, ih hrest]

theorem splitSlash_append (p rest : List Char) (hp : '/' ∉ p) :
    splitSlash (p ++ '/' :: rest) = p :: splitSlash rest := by
  induction p with
  | nil => simp [splitSlash]
  | cons c q ih =>
    have hc : ¬ c = '/' := by
      intro hcc
      exact hp (by simp [hcc])
    have hq : '/' ∉ q := fun hr => hp (List.mem_cons_of_mem _ hr)
    simp [splitSlash, hc, ih hq]

theorem splitSlash_joinSlash :
    ∀ (parts : List (List Char)), (∀ x ∈ parts, '/' ∉ x) → parts ≠ [] →
      splitSlash (joinSlash parts) = parts := by
  intro parts
  induction parts with
  | nil => intro _ h; exact absurd rfl h
  | cons x xs ih =>
    intro hall _
    cases xs with
    | nil => simpa [joinSlash] using splitSlash_of_no_slash x (hall x (by simp))
    | cons y ys =>
      have hx : '/' ∉ x := hall x (by simp)
      have hj : joinSlash (x :: y :: ys) = x ++ '/' :: joinSlash (y :: ys) := rfl
      rw [hj, splitSlash_append _ _ hx,
        ih (fun z hz => hall z (by simp [hz])) (by simp)]

theorem getLast?_ne_slash_of (x : List Char) (h : '/' ∉ x) : x.getLast? ≠ some '/' := by
  intro hl
  exact h (List.mem_of_mem_getLast? (by simp [Option.mem_def, hl]))

theorem head?_ne_slash_of (x : List Char) (h : '/' ∉ x) : x.head? ≠ some '/' := by
  intro hl
  exact h (List.mem_of_mem_head? (by simp [Option.mem_def, hl]))

theorem joinSlash_ne_nil :
    ∀ (parts : List (List Char)), parts ≠ [] → (∀ x ∈ parts, x ≠ []) →
      joinSlash parts ≠ [] := by
  intro parts hne hall
  cases parts with
  | nil => exact absurd rfl hne
  | cons x xs =>
    cases xs with
    | nil => exact hall x (by simp)
    | cons y ys =>
      have hj : joinSlash (x :: y :: ys) = x ++ '/' :: joinSlash (y :: ys) := rfl
      rw [hj]
      simp

theorem joinSlash_head?_ne_slash (parts : List (List Char))
    (hall : ∀ x ∈ parts, x ≠ [] ∧ '/' ∉ x) : (joinSlash parts).head? ≠ some '/' := by
  cases parts with
  | nil => simp [joinSlash]
  | cons x xs =>
    obtain ⟨hne, hns⟩ := hall x (by simp)
    cases xs with
    | nil => exact head?_ne_slash_of x hns
    | cons y ys =>
      have hj : joinSlash (x :: y :: ys) = x ++ '/' :: joinSlash (y :: ys) := rfl
      rw [hj, List.head?_append]
      rcases hh : x.head? with _ | c
      · exact absurd (List.head?_eq_none_iff.mp hh) hne
      · have : c ≠ '/' := by
          intro hc
          exact head?_ne_slash_of x hns (by rw [hh, hc])
        simp [this]

theorem joinSlash_getLast?_ne_slash :
    ∀ (parts : List (List Char)), (∀ x ∈ parts, x ≠ [] ∧ '/' ∉ x) →
      (joinSlash parts).getLast? ≠ some '/' := by
  intro parts
  induction parts with
  | nil => intro _; simp [joinSlash]
  | cons x xs ih =>
    intro hall
    cases xs with
    | nil => exact getLast?_ne_slash_of x (hall x (by simp)).2
    | cons y ys =>
      have hj : joinSlash (x :: y :: ys) = x ++ '/' :: joinSlash (y :: ys) := rfl
      rw [hj, List.getLast?_append]
      have hys := ih (fun z hz => hall z (by simp [hz]))
      have hjne : joinSlash (y :: ys) ≠ [] :=
        joinSlash_ne_nil _ (by simp) (fun z hz => (hall z (by simp [hz])).1)
      rcases hjj : joinSlash (y :: ys) with _ | ⟨z, zs⟩
      · exact absurd hjj hjne
      · rw [hjj] at hys
        rw [List.getLast?_cons_cons]
        rcases hw : (z :: zs).getLast? with _ | w
        · exact absurd (List.getLast?_eq_none_iff.mp hw) (by simp)
        · have : w ≠ '/' := by
            intro hww
            exact hys (by rw [hw, hww])
          simp [this]

theorem stripSlashes_eq_self (l : List Char)
    (h1 : l.head? ≠ some '/') (h2 : l.getLast? ≠ some '/') :
    stripSlashes l = l := by
  unfold stripSlashes
  have hd : l.dropWhile (fun c => c = '/') = l := by
    cases l with
    | nil => rfl
    | cons c t =>
      have : ¬ c = '/' := by
        intro hc
        exact h1 (by simp [hc])
      simp [List.dropWhile_cons, this]
  rw [hd]
  have hrev : l.reverse.dropWhile (fun c => c = '/') = l.reverse := by
    cases hr : l.reverse with
    | nil => rfl
    | cons c t =>
      have hc : ¬ c = '/' := by
        intro hc
        apply h2
        rw [← List.head?_reverse, hr, hc]
        rfl
      simp [List.dropWhile_cons, hc]
  rw [hrev, List.reverse_reverse]

theorem normSlashes_eq_self (l : List Char) (h : ∀ c ∈ l, c ≠ '\\') :
    normSlashes l = l := by
  induction l with
  | nil => rfl
  | cons c t ih =>
    have hc := h c (by simp)
    simp only [normSlashes, List.map_cons, if_neg hc]
    have := ih (fun d hd => h d (List.mem_cons_of_mem c hd))
    simpa [normSlashes] using this

theorem mem_normSlashes_ne (l : List Char) (c : Char) (h : c ∈ normSlashes l) :
    c ≠ '\\' := by
  rcases List.mem_map.mp h with ⟨a, _, ha⟩
  by_cases hb : a = '\\'
  · rw [← ha]; simp [hb]
  · rw [← ha]; simp [hb]

theorem mem_stripSlashes_sub (l : List Char) (c : Char) (h : c ∈ stripSlashes l) :
    c ∈ l := by
  unfold stripSlashes at h
  rw [List.mem_reverse] at h
  have h2 := (List.dropWhile_sublist (l := (l.dropWhile (fun c => c = '/')).reverse)
    (fun c => c = '/')).mem h
  rw [List.mem_reverse] at h2
  exact (List.dropWhile_sublist (fun c => c = '/')).mem h2

theorem mem_joinSlash (parts : List (List Char)) (c : Char)
    (h : c ∈ joinSlash parts) : c = '/' ∨ ∃ x ∈ parts, c ∈ x := by
  induction parts with
  | nil => simp [joinSlash] at h
  | cons x xs ih =>
    cases xs with
    | nil =>
      right
      exact ⟨x, by simp, h⟩
    | cons y ys =>
      have hj : joinSlash (x :: y :: ys) = x ++ '/' :: joinSlash (y :: ys) := rfl
      rw [hj] at h
      rcases List.mem_append.mp h with h1 | h1
      · exact Or.inr ⟨x, by simp, h1⟩
      · rcases List.mem_cons.mp h1 with h2 | h2
        · exact Or.inl h2
        · rcases ih h2 with h3 | ⟨z, hz, hcz⟩
          · exact Or.inl h3
          · exact Or.inr ⟨z, by simp [hz], hcz⟩

theorem walkSegs_sound :
    ∀ (segs : List (List Char)) (acc out : List (List Char)),
      walkSegs segs acc = some out →
      ∀ x ∈ out, x ∈ acc ∨ (x ∈ segs ∧ x ≠ ['.', '.'] ∧ x ≠ ['.'] ∧ x ≠ []) := by
  intro segs
  induction segs with
  | nil =>
    intro acc out h x hx
    simp [walkSegs] at h
    subst h
    exact Or.inl hx
  | cons s rest ih =>
    intro acc out h x hx
    by_cases hdd : s = ['.', '.']
    · subst hdd
      by_cases hacc : acc = []
      · rw [walkSegs, if_pos rfl, if_pos hacc] at h
        exact absurd h (by simp)
      · rw [walkSegs, if_pos rfl, if_neg hacc] at h
        rcases ih acc.dropLast out h x hx with h1 | ⟨h1, h2⟩
        · exact Or.inl ((List.dropLast_sublist acc).mem h1)
        · exact Or.inr ⟨List.mem_cons_of_mem _ h1, h2⟩
    · by_cases hd : s = ['.']
      · subst hd
        rw [walkSegs, if_neg hdd, if_pos rfl] at h
        rcases ih acc out h x hx with h1 | ⟨h1, h2⟩
        · exact Or.inl h1
        · exact Or.inr ⟨List.mem_cons_of_mem _ h1, h2⟩
      · by_cases he : s = []
        · subst he
          rw [walkSegs, if_neg hdd, if_neg hd, if_pos rfl] at h
          rcases ih acc out h x hx with h1 | ⟨h1, h2⟩
          · exact Or.inl h1
          · exact Or.inr ⟨List.mem_cons_of_mem _ h1, h2⟩
        · rw [walkSegs, if_neg hdd, if_neg hd, if_neg he] at h
          rcases ih (acc ++ [s]) out h x hx with h1 | ⟨h1, h2⟩
          · rcases List.mem_append.mp h1 with h3 | h3
            · exact Or.inl h3
            · have hxs : x = s := by simpa using h3
              subst hxs
              exact Or.inr ⟨List.mem_cons_self _ _, hdd, hd, he⟩
          · exact Or.inr ⟨List.mem_cons_of_mem _ h1, h2⟩

theorem walkSegs_all_keep :
    ∀ (segs : List (List Char)) (acc : List (List Char)),
      (∀ x ∈ segs, x ≠ ['.', '.'] ∧ x ≠ ['.'] ∧ x ≠ []) →
      walkSegs segs acc = some (acc ++ segs) := by
  intro segs
  induction segs with
  | nil => intro acc _; simp [walkSegs]
  | cons s rest ih =>
    intro acc hall
    obtain ⟨h1, h2, h3⟩ := hall s (by simp)
    rw [walkSegs, if_neg h1, if_neg h2, if_neg h3,
      ih (acc ++ [s]) (fun x hx => hall x (by simp [hx]))]
    simp

/-- **C8.** Key normalization is idempotent: if `_s3Key p` succeeds with key
`k`, then `_s3Key` applied to the produced key string returns `k` again. -/
theorem s3Key_idempotent (p k : List Char) (h : s3Key p = some k) :
    s3Key k = some k := by
  unfold s3Key at h
  rcases hw : walkSegs (pathSegments p) [] with _ | parts
  · rw [hw] at h; simp at h
  · rw [hw] at h
    simp only [Option.map_some'] at h
    have hk : joinSlash parts = k := Option.some.inj h
    have hparts : ∀ x ∈ parts, x ∈ pathSegments p ∧ x ≠ ['.', '.'] ∧ x ≠ ['.'] ∧ x ≠ [] := by
      intro x hx
      rcases walkSegs_sound (pathSegments p) [] parts hw x hx with h1 | h1
      · simp at h1
      · exact h1
    have hgood : ∀ x ∈ parts, x ≠ [] ∧ '/' ∉ x := by
      intro x hx
      obtain ⟨hmem, _, _, hne⟩ := hparts x hx
      exact ⟨hne, mem_splitSlash_no_slash _ x hmem⟩
    have hnb : ∀ x ∈ parts, ∀ c ∈ x, c ≠ '\\' := by
      intro x hx c hc
      obtain ⟨hmem, _⟩ := hparts x hx
      have hcl : c ∈ stripSlashes (normSlashes p) :=
        mem_splitSlash_sub _ x hmem c hc
      exact mem_normSlashes_ne _ c (mem_stripSlashes_sub _ c hcl)
    have hkchars : ∀ c ∈ k, c ≠ '\\' := by
      intro c hc
      rw [← hk] at hc
      rcases mem_joinSlash parts c hc with h1 | ⟨x, hx, hcx⟩
      · rw [h1]; decide
      · exact hnb x hx c hcx
    have hnorm : normSlashes k = k := normSlashes_eq_self k hkchars
    by_cases hpn : parts = []
    · rw [hpn] at hk
      have hknil : k = [] := by simpa [joinSlash] using hk.symm
      subst hknil
      rfl
    · have hstrip : stripSlashes k = k := by
        apply stripSlashes_eq_self
        · rw [← hk]
          exact joinSlash_head?_ne_slash parts hgood
        · rw [← hk]
          exact joinSlash_getLast?_ne_slash parts hgood
      have hsplit : splitSlash k = parts := by
        rw [← hk]
        exact splitSlash_joinSlash parts (fun x hx => (hgood x hx).2) hpn
      unfold s3Key pathSegments
      rw [hnorm, hstrip, hsplit,
        walkSegs_all_keep parts [] (fun x hx => (hparts x hx).2)]
      simp [hk]

theorem s3Key_idempotent_witness :
    s3Key (String.toList ("a//b/./c")) = some (String.toList ("a/b/c"))
    ∧ s3Key (String.toList ("a/b/c")) = some (String.toList ("a/b/c")) :=
  ⟨rfl, s3Key_idempotent (String.toList ("a//b/./c")) (String.toList ("a/b/c")) rfl⟩

/-! ## The object store model

The remote store is an association list from keys to objects; a freshly
written entry shadows older ones.  Each operation also returns the list of
S3 commands it sends, in order. -/

/-- `url.startsWith(s)` / `key.startsWith(s)` in JavaScript. -/
def strStartsWith : List Char → List Char → Bool
  | _, [] => true
  | [], _ :: _ => false
  | c :: s, d :: ds => decide (c = d) && strStartsWith s ds

/-- `s.endsWith("/")` in JavaScript. -/
def endsWithSlash (l : List Char) : Bool :=
  l.getLast? == some '/'

structure S3Object where
  body : List Nat
  lastModified : Nat
deriving DecidableEq

abbrev Store := List (List Char × S3Object)

def storeLookup : Store → List Char → Option S3Object
  | [], _ => none
  | (k', v) :: rest, k => if k' = k then some v else storeLookup rest k

def storeInsert (st : Store) (k : List Char) (v : S3Object) : Store :=
  (k, v) :: st

def storeKeys (st : Store) : List (List Char) :=
  st.map Prod.fst

/-- The S3 commands the adapters can send. -/
inductive S3Cmd
  | headObject (key : List Char)
  | listObjectsV2 (pfx : List Char) (maxKeys : Option Nat)
  | putObject (key : List Char) (body : List Nat)
  | getObject (key : List Char)
  | deleteObject (key : List Char)
  | copyObject (source dest : List Char)
deriving DecidableEq

/-- The not-found test of the adapter:
`error.name === "NoSuchKey" || error.name === "NotFound" ||
 error.$metadata?.httpStatusCode === 404`. -/
def isNotFoundError (e : S3Error) : Bool :=
  e.name == SdkErrName.noSuchKey || e.name == SdkErrName.notFoundErr
    || e.httpStatusCode == some 404

/-- The ideal store's `HeadObject` behaviour: present keys succeed, absent
keys fail with a 404 `NotFound` error. -/
def headOfStore (st : Store) : List Char → Except S3Error Unit :=
  fun k =>
    match storeLookup st k with
    | some _ => .ok ()
    | none => .error ⟨SdkErrName.notFoundErr, some 404⟩

/-! ## S3FileSystemProvider.exists -/

/-- `exists(fsPath)` of S3FileSystemProvider, over an arbitrary head-request
behaviour `headFn` (the store client's response).  Returns the issued
commands and the result; `.error` models a thrown exception. -/
def fsExists (headFn : List Char → Except S3Error Unit) (fsPath : List Char) :
    List S3Cmd × Except FsError Bool :=
  match s3Key fsPath with
  | none => ([], .error (.pathTraversal fsPath))
  | some k =>
    if k = [] then ([], .ok false)
    else
      ([S3Cmd.headObject k],
       match headFn k with
       | .ok _ => .ok true
       | .error e => if isNotFoundError e then .ok false else .error (.store e))

/-! ## S3FileSystemProvider.stat -/

/-- A `StatLike` record; `none` timestamps model `undefined`. -/
structure StatRecord where
  path : List Char
  absolutePath : List Char
  isFile : Bool
  isDirectory : Bool
  isSymbolicLink : Bool
  size : Nat
  modified : Option Nat
  created : Option Nat
  accessed : Option Nat
deriving DecidableEq

/-- `relativeOrAbsolutePathToAbsolutePath`, in the context where `_s3Key`
has already succeeded (as in `stat`'s record construction). -/
def relToAbs (bucket p : List Char) : List Char :=
  if strStartsWith p (String.toList ("s3://")) then p
  else String.toList ("s3://") ++ bucket ++ '/' :: ((s3Key p).getD [])

/-- The file record `stat` builds from a successful head response. -/
def fileRecord (bucket fsPath : List Char) (obj : S3Object) : StatRecord :=
  { path := fsPath
    absolutePath := relToAbs bucket fsPath
    isFile := true
    isDirectory := false
    isSymbolicLink := false
    size := obj.body.length
    modified := some obj.lastModified
    created := some obj.lastModified
    accessed := some obj.lastModified }

/-- The synthetic directory record `stat` builds when the directory
heuristic succeeds. -/
def dirRecord (bucket fsPath : List Char) : StatRecord :=
  { path := fsPath
    absolutePath := relToAbs bucket fsPath
    isFile := false
    isDirectory := true
    isSymbolicLink := false
    size := 0
    modified := none
    created := none
    accessed := none }

/-- The not-found fallback of `stat`: one `ListObjectsV2` with
`Prefix = key + "/"` (empty for the root) and `MaxKeys = 1`; any returned
entry (object or common-prefix) or the namespace-root case implies
directory existence. -/
def statFallback (bucket : List Char) (st : Store) (fsPath k : List Char) :
    List S3Cmd × Except FsError StatRecord :=
  let pfxToCheck := if k = [] then [] else k ++ ['/']
  let commonPfxs : List (List Char) := []
  let keyCount := ((storeKeys st).filter (fun key => strStartsWith key pfxToCheck)).length
  ([S3Cmd.listObjectsV2 pfxToCheck (some 1)],
   if keyCount > 0 ∨ commonPfxs ≠ [] ∨ k = [] then .ok (dirRecord bucket fsPath)
   else .error (.notFound fsPath))

/-- `stat(fsPath)` of S3FileSystemProvider over the ideal store: an empty
normalized key skips the head request (the code fabricates a 404 without
sending); a present object yields a file record; a 404 falls back to the
directory heuristic. -/
def stat (bucket : List Char) (st : Store) (fsPath : List Char) :
    List S3Cmd × Except FsError StatRecord :=
  match s3Key fsPath with
  | none => ([], .error (.pathTraversal fsPath))
  | some k =>
    if k = [] then statFallback bucket st fsPath k
    else
      match storeLookup st k with
      | some obj => ([S3Cmd.headObject k], .ok (fileRecord bucket fsPath obj))
      | none =>
        let fb := statFallback bucket st fsPath k
        (S3Cmd.headObject k :: fb.1, fb.2)

/-- Whether a command trace contains a head request. -/
def traceHasHead : List S3Cmd → Bool
  | [] => false
  | S3Cmd.headObject _ :: _ => true
  | _ :: rest => traceHasHead rest

theorem filter_length_pos_iff {α : Type} (l : List α) (p : α → Bool) :
    0 < (l.filter p).length ↔ ∃ x ∈ l, p x = true := by
  rw [List.length_pos]
  constructor
  · intro h
    rcases hx : l.filter p with _ | ⟨a, t⟩
    · exact absurd hx h
    · have ha : a ∈ l.filter p := by rw [hx]; simp
      rcases List.mem_filter.mp ha with ⟨h1, h2⟩
      exact ⟨a, h1, h2⟩
  · rintro ⟨x, hx, hp⟩ hnil
    have hm : x ∈ l.filter p := List.mem_filter.mpr ⟨hx, hp⟩
    rw [hnil] at hm
    simp at hm

/-- **C2 (counterexample).** The claim says stat issues a head request for
every path, but on the namespace root the code fabricates a not-found
without sending the head: the only command issued is the list fallback. -/
theorem stat_root_skips_head :
    traceHasHead (stat [] [] (String.toList ("/"))).1 = false
    ∧ (stat [] [] (String.toList ("/"))).1
        = [S3Cmd.listObjectsV2 [] (some 1)]
    ∧ (stat [] [] (String.toList ("/"))).2
        = .ok (dirRecord [] (String.toList ("/"))) :=
  ⟨rfl, rfl, rfl⟩

/-- **C2 (amended).** For every path whose normalized key is non-empty,
stat first issues a head request; if the object is present it returns a
file record; on not-found it falls back to a single list request with
`Prefix = key + "/"` and `MaxKeys = 1`, returning a synthetic directory
record (isFile false, isDirectory true, size 0, no timestamps) if any entry
is returned, and failing with `NotFoundError` otherwise.  For the namespace
root the head request is skipped (the code synthesizes the not-found) and
stat goes directly to the list fallback, which always yields the directory
record. -/
theorem stat_head_then_list_fallback (bucket : List Char) (st : Store)
    (p k : List Char) (hk : s3Key p = some k) :
    (k ≠ [] → ∀ obj, storeLookup st k = some obj →
        stat bucket st p = ([S3Cmd.headObject k], .ok (fileRecord bucket p obj))
        ∧ (fileRecord bucket p obj).isFile = true
        ∧ (fileRecord bucket p obj).isDirectory = false)
    ∧ (k ≠ [] → storeLookup st k = none →
        (stat bucket st p).1
            = [S3Cmd.headObject k, S3Cmd.listObjectsV2 (k ++ ['/']) (some 1)]
        ∧ ((∃ key ∈ storeKeys st, strStartsWith key (k ++ ['/']) = true) →
            (stat bucket st p).2 = .ok (dirRecord bucket p))
        ∧ ((¬ ∃ key ∈ storeKeys st, strStartsWith key (k ++ ['/']) = true) →
            (stat bucket st p).2 = .error (.notFound p)))
    ∧ (k = [] →
        stat bucket st p = ([S3Cmd.listObjectsV2 [] (some 1)], .ok (dirRecord bucket p)))
    ∧ (dirRecord bucket p).isFile = false
    ∧ (dirRecord bucket p).isDirectory = true
    ∧ (dirRecord bucket p).size = 0
    ∧ (dirRecord bucket p).modified = none
    ∧ (dirRecord bucket p).created = none
    ∧ (dirRecord bucket p).accessed = none := by
  refine ⟨?_, ?_, ?_, rfl, rfl, rfl, rfl, rfl, rfl⟩
  · intro hne obj hobj
    refine ⟨?_, rfl, rfl⟩
    simp only [stat, hk, hobj, if_neg hne]
  · intro hne hnone
    have hstat : stat bucket st p
        = (S3Cmd.headObject k :: (statFallback bucket st p k).1,
           (statFallback bucket st p k).2) := by
      simp only [stat, hk, hnone, if_neg hne]
    have hfb1 : (statFallback bucket st p k).1
        = [S3Cmd.listObjectsV2 (k ++ ['/']) (some 1)] := by
      simp only [statFallback, if_neg hne]
    refine ⟨by rw [hstat, hfb1], ?_, ?_⟩
    · intro hfound
      rw [hstat]
      have hpos : 0 < ((storeKeys st).filter
          (fun key => strStartsWith key (k ++ ['/']))).length :=
        (filter_length_pos_iff _ _).mpr hfound
      simp only [statFallback, if_neg hne]
      rw [if_pos (Or.inl hpos)]
    · intro hnf
      rw [hstat]
      have hz : ¬ 0 < ((storeKeys st).filter
          (fun key => strStartsWith key (k ++ ['/']))).length := by
        intro hpos
        exact hnf ((filter_length_pos_iff _ _).mp hpos)
      simp only [statFallback, if_neg hne]
      rw [if_neg (by push_neg; exact ⟨Nat.le_of_not_lt hz, rfl, hne⟩)]
  · intro hnil
    subst hnil
    simp [stat, hk, statFallback]

theorem stat_head_then_list_fallback_witness :
    stat [] [(String.toList ("a/b.txt"), ⟨[1, 2], 5⟩)] (String.toList ("a/b.txt"))
      = ([S3Cmd.headObject (String.toList ("a/b.txt"))],
         .ok (fileRecord [] (String.toList ("a/b.txt")) ⟨[1, 2], 5⟩))
    ∧ (stat [] [(String.toList ("a/b.txt"), ⟨[1, 2], 5⟩)] (String.toList ("a"))).2
      = .ok (dirRecord [] (String.toList ("a"))) := by
  have h1 := (stat_head_then_list_fallback [] [(String.toList ("a/b.txt"), ⟨[1, 2], 5⟩)]
    (String.toList ("a/b.txt")) (String.toList ("a/b.txt")) rfl).1
    (by decide) ⟨[1, 2], 5⟩ rfl
  have h2 := ((stat_head_then_list_fallback [] [(String.toList ("a/b.txt"), ⟨[1, 2], 5⟩)]
    (String.toList ("a")) (String.toList ("a")) rfl).2.1
    (by decide) rfl).2.1 ⟨String.toList ("a/b.txt"), by simp [storeKeys], by decide⟩
  exact ⟨h1.1, h2⟩

/-- **C3 (counterexample).** The claim says `exists` never throws and
resolves to `false` on any error, but a store error that is not the
not-found family (here a 403) is rethrown. -/
theorem fsExists_propagates_store_error :
    fsExists (fun _ => .error ⟨SdkErrName.otherErr, some 403⟩) (String.toList ("a"))
      = ([S3Cmd.headObject (String.toList ("a"))],
         .error (.store ⟨SdkErrName.otherErr, some 403⟩)) := rfl

/-- **C3 (amended).** `exists` issues a head request when the normalized
key is non-empty and resolves to `true` on success; it resolves to `false`
when the key is empty or when the head fails with a `NoSuchKey`/`NotFound`
name or a 404 status; it propagates path-traversal errors and every other
store error. -/
theorem fsExists_characterization (headFn : List Char → Except S3Error Unit)
    (p : List Char) :
    (s3Key p = none → fsExists headFn p = ([], .error (.pathTraversal p)))
    ∧ (s3Key p = some [] → fsExists headFn p = ([], .ok false))
    ∧ (∀ k, s3Key p = some k → k ≠ [] →
        (fsExists headFn p).1 = [S3Cmd.headObject k]
        ∧ (headFn k = .ok () → (fsExists headFn p).2 = .ok true)
        ∧ (∀ e, headFn k = .error e → isNotFoundError e = true →
            (fsExists headFn p).2 = .ok false)
        ∧ (∀ e, headFn k = .error e → isNotFoundError e = false →
            (fsExists headFn p).2 = .error (.store e))) := by
  refine ⟨?_, ?_, ?_⟩
  · intro h
    simp only [fsExists, h]
  · intro h
    simp [fsExists, h]
  · intro k hk hne
    refine ⟨by simp only [fsExists, hk, if_neg hne], ?_, ?_, ?_⟩
    · intro hok
      simp only [fsExists, hk, if_neg hne, hok]
    · intro e herr hnf
      simp only [fsExists, hk, if_neg hne, herr, hnf, if_pos rfl]
      simp
    · intro e herr hnf
      simp only [fsExists, hk, if_neg hne, herr, hnf]
      simp

theorem fsExists_characterization_witness :
    fsExists (headOfStore []) (String.toList ("a")) = ([S3Cmd.headObject ['a']], .ok false) := by
  have h := ((fsExists_characterization (headOfStore []) (String.toList ("a"))).2.2
    ['a'] rfl (by decide)).2.2.1 ⟨SdkErrName.notFoundErr, some 404⟩ rfl rfl
  have h1 := ((fsExists_characterization (headOfStore []) (String.toList ("a"))).2.2
    ['a'] rfl (by decide)).1
  rcases hx : fsExists (headOfStore []) (String.toList ("a")) with ⟨tr, res⟩
  rw [hx] at h h1
  simp at h h1
  rw [h, h1]

/-! ## writeFile / readFile -/

/-- Content handed to `writeFile`: a text string or a binary buffer. -/
inductive FileContent
  | str (s : String)
  | buf (b : List Nat)
deriving DecidableEq

/-- Models the platform text codec (`Buffer`/`transformToString` with utf8
in the source) at the code-point level; the adapter relies only on decoding
being a left inverse of encoding, which holds for the real codec. -/
def encodeText (s : String) : List Nat :=
  s.data.map Char.toNat

def decodeText (b : List Nat) : String :=
  String.mk (b.map Char.ofNat)

def contentBytes : FileContent → List Nat
  | .str s => encodeText s
  | .buf b => b

/-- The encodings readFile distinguishes: `"buffer"` returns raw bytes,
anything else decodes as text. -/
inductive ReadEncoding
  | utf8
  | buffer
deriving DecidableEq

/-- `writeFile(fsPath, content)`: rejects an empty normalized key, then puts
the object. -/
def writeFile (st : Store) (fsPath : List Char) (content : FileContent)
    (now : Nat) : Except FsError Store :=
  match s3Key fsPath with
  | none => .error (.pathTraversal fsPath)
  | some k =>
    if k = [] then .error .emptyKey
    else .ok (storeInsert st k ⟨contentBytes content, now⟩)

/-- `readFile(fsPath, encoding)`: rejects an empty normalized key, gets the
object, and returns bytes for `"buffer"` or decoded text otherwise. -/
def readFile (st : Store) (fsPath : List Char) (enc : ReadEncoding) :
    Except FsError FileContent :=
  match s3Key fsPath with
  | none => .error (.pathTraversal fsPath)
  | some k =>
    if k = [] then .error .emptyKey
    else
      match storeLookup st k with
      | none => .error (.notFound fsPath)
      | some obj =>
        match enc with
        | .buffer => .ok (.buf obj.body)
        | .utf8 => .ok (.str (decodeText obj.body))

theorem storeLookup_insert (st : Store) (k : List Char) (v : S3Object) :
    storeLookup (storeInsert st k v) k = some v := by
  simp [storeInsert, storeLookup]

theorem decodeText_encodeText (s : String) : decodeText (encodeText s) = s := by
  unfold decodeText encodeText
  rw [List.map_map]
  have : (Char.ofNat ∘ Char.toNat) = id := by
    funext c
    simp [Function.comp, Char.ofNat_toNat]
  rw [this, List.map_id]

/-- **C6.** For every path with a non-empty normalized key, writing content
and reading it back with the matching encoding returns the content
unchanged, for both binary (`"buffer"`) and text content. -/
theorem write_read_roundtrip (st : Store) (p k : List Char) (now : Nat)
    (hk : s3Key p = some k) (hne : k ≠ []) :
    (∀ b : List Nat, ∃ st1, writeFile st p (.buf b) now = .ok st1
        ∧ readFile st1 p .buffer = .ok (.buf b))
    ∧ (∀ s : String, ∃ st1, writeFile st p (.str s) now = .ok st1
        ∧ readFile st1 p .utf8 = .ok (.str s)) := by
  constructor
  · intro b
    refine ⟨storeInsert st k ⟨b, now⟩, ?_, ?_⟩
    · simp only [writeFile, hk, if_neg hne, contentBytes]
    · simp only [readFile, hk, if_neg hne, storeLookup_insert]
  · intro s
    refine ⟨storeInsert st k ⟨encodeText s, now⟩, ?_, ?_⟩
    · simp only [writeFile, hk, if_neg hne, contentBytes]
    · simp only [readFile, hk, if_neg hne, storeLookup_insert,
        decodeText_encodeText]

theorem write_read_roundtrip_witness :
    (∃ st1, writeFile [] (String.toList ("a.txt")) (.buf [7, 8]) 0 = .ok st1
        ∧ readFile st1 (String.toList ("a.txt")) .buffer = .ok (.buf [7, 8]))
    ∧ ∃ st1, writeFile [] (String.toList ("a.txt")) (.str ("hi")) 0 = .ok st1
        ∧ readFile st1 (String.toList ("a.txt")) .utf8 = .ok (.str ("hi")) := by
  have h := write_read_roundtrip [] (String.toList ("a.txt"))
    (String.toList ("a.txt")) 0 rfl (by decide)
  exact ⟨h.1 [7, 8], h.2 ("hi")⟩

/-! ## copy -/

/-- The server-side copy request; the store's `CopyObject` fails with
`NoSuchKey` when the source object is absent. -/
def copyStep (st : Store) (sk dk : List Char) : List S3Cmd × Except FsError Store :=
  match storeLookup st sk with
  | some obj => ([S3Cmd.copyObject sk dk], .ok (storeInsert st dk obj))
  | none => ([S3Cmd.copyObject sk dk], .error (.store ⟨SdkErrName.noSuchKey, some 404⟩))

/-- `copy(src, dst, {overwrite})`: normalizes both paths, rejects empty
keys, and when `overwrite` is false first checks the destination via
`exists` (one head request) and fails with `AlreadyExistsError` before
issuing the copy. -/
def copy (st : Store) (src dst : List Char) (overwrite : Bool) :
    List S3Cmd × Except FsError Store :=
  match s3Key src with
  | none => ([], .error (.pathTraversal src))
  | some sk =>
    match s3Key dst with
    | none => ([], .error (.pathTraversal dst))
    | some dk =>
      if sk = [] then ([], .error .emptyKey)
      else if dk = [] then ([], .error .emptyKey)
      else if overwrite = false then
        let ex := fsExists (headOfStore st) dst
        match ex.2 with
        | .error e => (ex.1, .error e)
        | .ok true => (ex.1, .error (.alreadyExists dst))
        | .ok false =>
          let cs := copyStep st sk dk
          (ex.1 ++ cs.1, cs.2)
      else copyStep st sk dk

/-- **C7.** With `overwrite: false` and an existing destination, copy fails
with `AlreadyExistsError` after only the existence head request — no
`CopyObject` is issued; with `overwrite: true` (and a present source) the
copy succeeds and the destination is overwritten with the source object. -/
theorem copy_overwrite_check (st : Store) (src dst sk dk : List Char)
    (hs : s3Key src = some sk) (hd : s3Key dst = some dk)
    (hsne : sk ≠ []) (hdne : dk ≠ []) :
    (∀ obj, storeLookup st dk = some obj →
        copy st src dst false = ([S3Cmd.headObject dk], .error (.alreadyExists dst)))
    ∧ (∀ obj, storeLookup st sk = some obj →
        copy st src dst true = ([S3Cmd.copyObject sk dk], .ok (storeInsert st dk obj))
        ∧ storeLookup (storeInsert st dk obj) dk = some obj) := by
  constructor
  · intro obj hobj
    have hex : fsExists (headOfStore st) dst = ([S3Cmd.headObject dk], .ok true) := by
      simp only [fsExists, hd, if_neg hdne, headOfStore, hobj]
    simp only [copy, hs, hd, if_neg hsne, if_neg hdne, hex]
    simp
  · intro obj hobj
    refine ⟨?_, storeLookup_insert st dk obj⟩
    simp only [copy, hs, hd, if_neg hsne, if_neg hdne, copyStep, hobj]
    simp

theorem copy_overwrite_check_witness :
    copy [(String.toList ("a"), ⟨[1], 0⟩), (String.toList ("b"), ⟨[2], 0⟩)]
      (String.toList ("a")) (String.toList ("b")) false
      = ([S3Cmd.headObject ['b']], .error (.alreadyExists ['b']))
    ∧ copy [(String.toList ("a"), ⟨[1], 0⟩), (String.toList ("b"), ⟨[2], 0⟩)]
      (String.toList ("a")) (String.toList ("b")) true
      = ([S3Cmd.copyObject ['a'] ['b']],
         .ok (storeInsert [(String.toList ("a"), ⟨[1], 0⟩), (String.toList ("b"), ⟨[2], 0⟩)]
           ['b'] ⟨[1], 0⟩)) := by
  have h := copy_overwrite_check
    [(String.toList ("a"), ⟨[1], 0⟩), (String.toList ("b"), ⟨[2], 0⟩)]
    (String.toList ("a")) (String.toList ("b")) ['a'] ['b']
    rfl rfl (by decide) (by decide)
  exact ⟨h.1 ⟨[2], 0⟩ rfl, (h.2 ⟨[1], 0⟩ rfl).1⟩

/-! ## getDirectoryTree -/

/-- The per-item filter term `!ignoreFilter || !ignoreFilter(item.Key)`. -/
def passFilter (ignoreFilter : Option (List Char → Bool)) (k : List Char) : Bool :=
  match ignoreFilter with
  | none => true
  | some f => !f k

/-- The relative path computed for each listed key. -/
def relPath (np k : List Char) : List Char :=
  if strStartsWith k np then k.drop np.length else k

/-- The loop body of `getDirectoryTree` over the listed keys: skip the
prefix's own marker object, skip nested entries when not recursive, skip
ignored keys, yield the rest. -/
def yieldItems (np : List Char) (recursive : Bool)
    (ignoreFilter : Option (List Char → Bool)) : List (List Char) → List (List Char)
  | [] => []
  | k :: rest =>
    if k = np ∧ endsWithSlash k = true then
      yieldItems np recursive ignoreFilter rest
    else if recursive = false ∧ '/' ∈ relPath np k then
      yieldItems np recursive ignoreFilter rest
    else if passFilter ignoreFilter k then
      k :: yieldItems np recursive ignoreFilter rest
    else
      yieldItems np recursive ignoreFilter rest

/-- The prefix normalization of `getDirectoryTree`: empty stays empty,
otherwise ensure exactly one trailing slash. -/
def normalizedTreePfx (sPfx : List Char) : List Char :=
  if sPfx = [] then [] else if endsWithSlash sPfx then sPfx else sPfx ++ ['/']

/-- `getDirectoryTree(fsPath, {recursive, ignoreFilter})` over the ideal
store: the paginated `ListObjectsV2` pages concatenate to all stored keys
that start with the normalized prefix, in store order. -/
def getDirectoryTree (st : Store) (fsPath : List Char) (recursive : Bool)
    (ignoreFilter : Option (List Char → Bool)) : Except FsError (List (List Char)) :=
  match s3Key fsPath with
  | none => .error (.pathTraversal fsPath)
  | some sPfx =>
    let np := normalizedTreePfx sPfx
    .ok (yieldItems np recursive ignoreFilter
      ((storeKeys st).filter (fun k => strStartsWith k np)))

theorem mem_yieldItems (np : List Char) (r : Bool)
    (ig : Option (List Char → Bool)) :
    ∀ (l : List (List Char)) (k : List Char),
      k ∈ yieldItems np r ig l ↔
        k ∈ l ∧ ¬(k = np ∧ endsWithSlash k = true)
          ∧ ¬(r = false ∧ '/' ∈ relPath np k) ∧ passFilter ig k = true := by
  intro l
  induction l with
  | nil => intro k; simp [yieldItems]
  | cons a rest ih =>
    intro k
    by_cases h1 : a = np ∧ endsWithSlash a = true
    · rw [yieldItems, if_pos h1, ih k]
      constructor
      · rintro ⟨hm, h2, h3, h4⟩
        exact ⟨List.mem_cons_of_mem a hm, h2, h3, h4⟩
      · rintro ⟨hm, h2, h3, h4⟩
        rcases List.mem_cons.mp hm with he | hm2
        · subst he; exact absurd h1 h2
        · exact ⟨hm2, h2, h3, h4⟩
    · by_cases h2 : r = false ∧ '/' ∈ relPath np a
      · rw [yieldItems, if_neg h1, if_pos h2, ih k]
        constructor
        · rintro ⟨hm, h3, h4, h5⟩
          exact ⟨List.mem_cons_of_mem a hm, h3, h4, h5⟩
        · rintro ⟨hm, h3, h4, h5⟩
          rcases List.mem_cons.mp hm with he | hm2
          · subst he; exact absurd h2 h4
          · exact ⟨hm2, h3, h4, h5⟩
      · by_cases h3 : passFilter ig a = true
        · rw [yieldItems, if_neg h1, if_neg h2, if_pos h3]
          constructor
          · intro hm
            rcases List.mem_cons.mp hm with he | hm2
            · subst he
              exact ⟨List.mem_cons_self _ _, h1, h2, h3⟩
            · rcases (ih k).mp hm2 with ⟨hm3, h4, h5, h6⟩
              exact ⟨List.mem_cons_of_mem a hm3, h4, h5, h6⟩
          · rintro ⟨hm, h4, h5, h6⟩
            rcases List.mem_cons.mp hm with he | hm2
            · subst he; exact List.mem_cons_self k _
            · exact List.mem_cons_of_mem a ((ih k).mpr ⟨hm2, h4, h5, h6⟩)
        · rw [yieldItems, if_neg h1, if_neg h2, if_neg h3, ih k]
          constructor
          · rintro ⟨hm, h4, h5, h6⟩
            exact ⟨List.mem_cons_of_mem a hm, h4, h5, h6⟩
          · rintro ⟨hm, h4, h5, h6⟩
            rcases List.mem_cons.mp hm with he | hm2
            · subst he; exact absurd h6 h3
            · exact ⟨hm2, h4, h5, h6⟩

/-- **C5.** With `recursive: false`, `getDirectoryTree` never yields a key
whose path relative to the normalized prefix contains an embedded slash;
with `recursive: true` it yields every listed descendant key; in both modes
the prefix's own marker object is never yielded and keys matching the
ignore filter are skipped. -/
theorem getDirectoryTree_characterization (st : Store) (fsPath sPfx : List Char)
    (ig : Option (List Char → Bool)) (hs : s3Key fsPath = some sPfx) :
    ∀ r out, getDirectoryTree st fsPath r ig = .ok out →
      (∀ k ∈ out, ¬(k = normalizedTreePfx sPfx ∧ endsWithSlash k = true))
      ∧ (∀ k ∈ out, passFilter ig k = true)
      ∧ (r = false →
          ∀ k ∈ out, '/' ∉ relPath (normalizedTreePfx sPfx) k)
      ∧ (r = true →
          ∀ k ∈ storeKeys st,
            strStartsWith k (normalizedTreePfx sPfx) = true →
            ¬(k = normalizedTreePfx sPfx ∧ endsWithSlash k = true) →
            passFilter ig k = true → k ∈ out) := by
  intro r out hout
  have hexp : out = yieldItems (normalizedTreePfx sPfx) r ig
      ((storeKeys st).filter (fun k => strStartsWith k (normalizedTreePfx sPfx))) := by
    simp only [getDirectoryTree, hs] at hout
    exact (Except.ok.inj hout).symm
  subst hexp
  refine ⟨?_, ?_, ?_, ?_⟩
  · intro k hk
    exact ((mem_yieldItems _ _ _ _ k).mp hk).2.1
  · intro k hk
    exact ((mem_yieldItems _ _ _ _ k).mp hk).2.2.2
  · intro hr k hk
    intro hslash
    exact ((mem_yieldItems _ _ _ _ k).mp hk).2.2.1 ⟨hr, hslash⟩
  · intro hr k hk hsw hmarker hpass
    refine (mem_yieldItems _ _ _ _ k).mpr ⟨List.mem_filter.mpr ⟨hk, hsw⟩, hmarker, ?_, hpass⟩
    rintro ⟨hfalse, _⟩
    rw [hr] at hfalse
    exact Bool.noConfusion hfalse

theorem getDirectoryTree_characterization_witness :
    getDirectoryTree
        [(String.toList ("notes/a.txt"), ⟨[1], 0⟩),
         (String.toList ("notes/sub/c.txt"), ⟨[2], 0⟩)]
        (String.toList ("notes")) false none
      = .ok [String.toList ("notes/a.txt")]
    ∧ String.toList ("notes/sub/c.txt") ∈
        (yieldItems (String.toList ("notes/"))
          true none [String.toList ("notes/a.txt"), String.toList ("notes/sub/c.txt")]) := by
  constructor
  · rfl
  · have h := (getDirectoryTree_characterization
      [(String.toList ("notes/a.txt"), ⟨[1], 0⟩),
       (String.toList ("notes/sub/c.txt"), ⟨[2], 0⟩)]
      (String.toList ("notes")) (String.toList ("notes")) none rfl
      true (yieldItems (String.toList ("notes/")) true none
        [String.toList ("notes/a.txt"), String.toList ("notes/sub/c.txt")]) rfl).2.2.2
    exact h rfl (String.toList ("notes/sub/c.txt")) (by simp [storeKeys])
      (by decide) (by decide) rfl

/-! ## The CDN adapters (S3CDNProvider / S3CDNService) -/

/-- Construction-time state of `S3CDNProvider`: the bucket and the
optionally configured base URL. -/
structure ProviderCfg where
  bucket : List Char
  baseUrlOpt : Option (List Char)
deriving DecidableEq

/-- The base URL after the constructor's defaulting:
the configured one, else the virtual-hosted form
`https://{bucket}.s3.amazonaws.com`. -/
def effectiveBaseUrl (cfg : ProviderCfg) : List Char :=
  match cfg.baseUrlOpt with
  | some b => b
  | none => String.toList ("https://") ++ cfg.bucket ++ String.toList (".s3.amazonaws.com")

def amazonPat : List Char :=
  String.toList ("amazonaws.com/")

/-- The JavaScript regular-expression match
`url.match(/amazonaws\.com\/(.+)$/)`: the captured group of the leftmost
position where the pattern matches — everything after that occurrence of
`amazonaws.com/`, which must be non-empty and newline-free for `.+` with
the end anchor to match. -/
def amazonMatch : List Char → Option (List Char)
  | [] => none
  | c :: rest =>
    if strStartsWith (c :: rest) amazonPat = true
        ∧ (c :: rest).drop amazonPat.length ≠ []
        ∧ '\n' ∉ (c :: rest).drop amazonPat.length then
      some ((c :: rest).drop amazonPat.length)
    else amazonMatch rest

/-- `S3CDNProvider.extractKeyFromUrl`. -/
def extractKeyFromUrl (cfg : ProviderCfg) (url : List Char) : List Char :=
  let base := effectiveBaseUrl cfg
  if strStartsWith url base = true then url.drop (base.length + 1)
  else
    match amazonMatch url with
    | some k => k
    | none => url

/-- The URL and id an upload returns for the stored key. -/
structure UploadResult where
  url : List Char
  id : List Char
deriving DecidableEq

/-- `S3CDNProvider.upload`'s returned record for the chosen key:
`url = baseUrl + "/" + key`, `id = key`. -/
def uploadResult (cfg : ProviderCfg) (key : List Char) : UploadResult :=
  { url := effectiveBaseUrl cfg ++ '/' :: key, id := key }

structure DeleteResult where
  success : Bool
  message : List Char
deriving DecidableEq

/-- A rendering of the caught error's message. -/
def errMessage (e : S3Error) : List Char :=
  match e.name with
  | SdkErrName.noSuchKey => String.toList ("NoSuchKey")
  | SdkErrName.notFoundErr => String.toList ("NotFound")
  | SdkErrName.otherErr => String.toList ("Error")

/-- `S3CDNProvider.delete(url)`: reverse-map the URL to a key, issue the
delete, and fold any thrown error into a `{success: false}` record. -/
def providerDelete (cfg : ProviderCfg) (delFn : List Char → Except S3Error Unit)
    (url : List Char) : List S3Cmd × DeleteResult :=
  let key := extractKeyFromUrl cfg url
  match delFn key with
  | .ok _ =>
    ([S3Cmd.deleteObject key],
     ⟨true, String.toList ("Successfully deleted ") ++ key⟩)
  | .error e =>
    ([S3Cmd.deleteObject key],
     ⟨false, String.toList ("Failed to delete: ") ++ errMessage e⟩)

/-- `S3CDNProvider.exists(url)`: head request; any error folds to false. -/
def providerExists (cfg : ProviderCfg) (headFn : List Char → Except S3Error Unit)
    (url : List Char) : List S3Cmd × Bool :=
  let key := extractKeyFromUrl cfg url
  match headFn key with
  | .ok _ => ([S3Cmd.headObject key], true)
  | .error _ => ([S3Cmd.headObject key], false)

/-- The ideal store's `DeleteObject` behaviour in a model where deleting an
absent key reports `NoSuchKey` (the scenario behind the spec's
already-deleted case). -/
def storeDeleteFn (st : Store) : List Char → Except S3Error Unit :=
  fun k =>
    match storeLookup st k with
    | some _ => .ok ()
    | none => .error ⟨SdkErrName.noSuchKey, some 404⟩

/-- `S3CDNService.extractKeyFromUrl`: same as the provider's, except the
base-URL branch is only taken when a base URL is configured at all. -/
def serviceExtractKeyFromUrl (baseUrlOpt : Option (List Char)) (url : List Char) :
    List Char :=
  match baseUrlOpt with
  | some b =>
    if strStartsWith url b = true then url.drop (b.length + 1)
    else
      match amazonMatch url with
      | some k => k
      | none => url
  | none =>
    match amazonMatch url with
    | some k => k
    | none => url

abbrev Meta := List (List Char × List Char)

/-- `S3CDNService.getMetadata(url)`: head request; returns
`response.Metadata || null`, folding any error into `null`. -/
def serviceGetMetadata (baseUrlOpt : Option (List Char))
    (headMeta : List Char → Except S3Error (Option Meta)) (url : List Char) :
    List S3Cmd × Option Meta :=
  let key := serviceExtractKeyFromUrl baseUrlOpt url
  match headMeta key with
  | .ok m => ([S3Cmd.headObject key], m)
  | .error _ => ([S3Cmd.headObject key], none)

/-- **C4.** `delete(url)` always resolves to a `{success, message}` record:
it issues the store delete for the reverse-mapped key, returns success on
an ok response, catches every error into `{success: false}`, and in
particular deleting an already-deleted URL (absent key, reported by the
store as `NoSuchKey`) resolves to `{success: false}` instead of raising. -/
theorem providerDelete_never_throws (cfg : ProviderCfg)
    (delFn : List Char → Except S3Error Unit) (url : List Char) :
    (providerDelete cfg delFn url).1
        = [S3Cmd.deleteObject (extractKeyFromUrl cfg url)]
    ∧ (delFn (extractKeyFromUrl cfg url) = .ok () →
        (providerDelete cfg delFn url).2
          = ⟨true, String.toList ("Successfully deleted ")
              ++ extractKeyFromUrl cfg url⟩)
    ∧ (∀ e, delFn (extractKeyFromUrl cfg url) = .error e →
        (providerDelete cfg delFn url).2
          = ⟨false, String.toList ("Failed to delete: ") ++ errMessage e⟩)
    ∧ (∀ st, storeLookup st (extractKeyFromUrl cfg url) = none →
        (providerDelete cfg (storeDeleteFn st) url).2.success = false) := by
  refine ⟨?_, ?_, ?_, ?_⟩
  · rcases h : delFn (extractKeyFromUrl cfg url) with e | u
    · simp only [providerDelete, h]
    · simp only [providerDelete, h]
  · intro h
    simp only [providerDelete, h]
  · intro e h
    simp only [providerDelete, h]
  · intro st h
    simp only [providerDelete, storeDeleteFn, h]

theorem providerDelete_never_throws_witness :
    (providerDelete ⟨String.toList ("b"), none⟩ (storeDeleteFn [])
        (String.toList ("https://b.s3.amazonaws.com/k.txt"))).2.success = false :=
  (providerDelete_never_throws ⟨String.toList ("b"), none⟩ (storeDeleteFn [])
    (String.toList ("https://b.s3.amazonaws.com/k.txt"))).2.2.2 [] rfl

theorem strStartsWith_append (p t : List Char) :
    strStartsWith (p ++ t) p = true := by
  induction p with
  | nil => cases t <;> rfl
  | cons c q ih => simp [strStartsWith, ih]

/-- **C9.** The URL `upload` returns is reversible back to the stored key:
`extractKeyFromUrl` applied to the returned url yields exactly the returned
id, both for a configured custom base URL and for the defaulted
virtual-hosted URL form. -/
theorem extractKey_uploadUrl_inverse (cfg : ProviderCfg) (key : List Char) :
    extractKeyFromUrl cfg (uploadResult cfg key).url = (uploadResult cfg key).id
    ∧ (cfg.baseUrlOpt = none → (uploadResult cfg key).url
        = String.toList ("https://") ++ cfg.bucket
          ++ String.toList (".s3.amazonaws.com") ++ '/' :: key)
    ∧ (∀ b, cfg.baseUrlOpt = some b →
        (uploadResult cfg key).url = b ++ '/' :: key) := by
  refine ⟨?_, ?_, ?_⟩
  · have hsw : strStartsWith (effectiveBaseUrl cfg ++ '/' :: key)
        (effectiveBaseUrl cfg) = true := strStartsWith_append _ _
    have hdrop : (effectiveBaseUrl cfg ++ '/' :: key).drop
        ((effectiveBaseUrl cfg).length + 1) = key := by
      have hsplit : effectiveBaseUrl cfg ++ '/' :: key
          = (effectiveBaseUrl cfg ++ ['/']) ++ key := by
        simp
      rw [hsplit, List.drop_left' (by simp)]
    simp only [extractKeyFromUrl, uploadResult, hsw]
    simp [hdrop]
  · intro h
    simp [uploadResult, effectiveBaseUrl, h]
  · intro b h
    simp [uploadResult, effectiveBaseUrl, h]

/-- **C10.** For every URL that neither starts with the effective base URL
nor matches the `amazonaws.com/` pattern, the reversal returns the input
verbatim, and `delete` / `exists` / `getMetadata` operate on that raw
string as the object key. -/
theorem malformed_url_passthrough (cfg : ProviderCfg) (url : List Char)
    (delFn headFn : List Char → Except S3Error Unit)
    (baseUrlOpt : Option (List Char))
    (headMeta : List Char → Except S3Error (Option Meta))
    (h1 : strStartsWith url (effectiveBaseUrl cfg) = false)
    (h2 : amazonMatch url = none)
    (h3 : ∀ b, baseUrlOpt = some b → strStartsWith url b = false) :
    extractKeyFromUrl cfg url = url
    ∧ (providerDelete cfg delFn url).1 = [S3Cmd.deleteObject url]
    ∧ (providerExists cfg headFn url).1 = [S3Cmd.headObject url]
    ∧ serviceExtractKeyFromUrl baseUrlOpt url = url
    ∧ (serviceGetMetadata baseUrlOpt headMeta url).1 = [S3Cmd.headObject url] := by
  have hex : extractKeyFromUrl cfg url = url := by
    simp only [extractKeyFromUrl, h1, h2]
    simp
  have hsex : serviceExtractKeyFromUrl baseUrlOpt url = url := by
    cases hb : baseUrlOpt with
    | none => simp only [serviceExtractKeyFromUrl, h2]
    | some b =>
      simp only [serviceExtractKeyFromUrl, h3 b hb, h2]
      simp
  refine ⟨hex, ?_, ?_, hsex, ?_⟩
  · rcases h : delFn url with e | u
    · simp only [providerDelete, hex, h]
    · simp only [providerDelete, hex, h]
  · rcases h : headFn url with e | u
    · simp only [providerExists, hex, h]
    · simp only [providerExists, hex, h]
  · rcases h : headMeta url with e | m
    · simp only [serviceGetMetadata, hsex, h]
    · simp only [serviceGetMetadata, hsex, h]

theorem malformed_url_passthrough_witness :
    extractKeyFromUrl ⟨String.toList ("b"), none⟩ (String.toList ("plain-key.png"))
      = String.toList ("plain-key.png")
    ∧ (providerDelete ⟨String.toList ("b"), none⟩ (storeDeleteFn [])
        (String.toList ("plain-key.png"))).1
      = [S3Cmd.deleteObject (String.toList ("plain-key.png"))] := by
  have h := malformed_url_passthrough ⟨String.toList ("b"), none⟩
    (String.toList ("plain-key.png")) (storeDeleteFn []) (storeDeleteFn [])
    none (fun _ => .ok none) (by decide) (by decide)
    (fun b hb => Option.noConfusion hb)
  exact ⟨h.1, h.2.1⟩

theorem s3Key_traversal_characterization_witness :
    s3Key (String.toList ("..")) = none :=
  (s3Key_traversal_characterization.2.2.1 (String.toList (".."))).mpr rfl

theorem extractKey_uploadUrl_inverse_witness :
    extractKeyFromUrl ⟨String.toList ("b"), none⟩
        (uploadResult ⟨String.toList ("b"), none⟩ (String.toList ("k.png"))).url
      = String.toList ("k.png") :=
  (extractKey_uploadUrl_inverse ⟨String.toList ("b"), none⟩ (String.toList ("k.png"))).1
